import Mathlib

/-!
Verification of the Screen patch-application engine of the banani-nani
repository.

The definitions below are a shallow embedding of `src/lib/applyPatch.ts`,
`src/lib/screenSchema.ts` (the ComponentId format), and the HTML-stripping
pass of `src/lib/renderScreen.ts`.

Modelling conventions:
* A JavaScript `Record<string, StoredComponent>` becomes an association
  list `List (String × Component)`; assignment (`setC`) overwrites the
  first binding in place (JS objects keep the insertion position of an
  existing key) and appends fresh keys at the end, mirroring JS key order.
* A JavaScript `Set<string>` iterated in insertion order becomes a
  duplicate-free `List String` grown at the end.
* JS numbers reaching `clampIndex` are modelled by `JsNum`: NaN, the two
  infinities, and finite integers (the zod schema restricts patch indices
  to integers, and `clampIndex` special-cases exactly NaN and non-finite
  values).
* The guards `Boolean(next.components[id])` / `!next.components[id]` are
  JS property reads on a plain object, which fall through to
  `Object.prototype` when the key is not an own key: `jsTruthy` models
  this (own key, or an `Object.prototype` property name — all of whose
  values are truthy).  Assignment and `delete` are own-property
  operations; modelling assignment as own-property creation is faithful
  for every id except the `__proto__` accessor, which the ComponentId
  format rejects (it cannot start with an underscore).
-/

structure Component where
  name : String
  html : String
deriving DecidableEq

structure UpsertEntry where
  id : String
  name : String
  html : String
deriving DecidableEq

inductive JsNum where
  | nan : JsNum
  | posInf : JsNum
  | negInf : JsNum
  | int : Int → JsNum
deriving DecidableEq

inductive LayoutOp where
  | insert : String → JsNum → LayoutOp
  | remove : String → LayoutOp
  | move : String → JsNum → LayoutOp
  | set : List String → LayoutOp
deriving DecidableEq

structure Patch where
  upsert_components : List UpsertEntry
  delete_components : List String
  layout_patch : List LayoutOp
  title : Option String
  globalCss : Option String
deriving DecidableEq

structure ScreenState where
  title : Option String
  globalCss : Option String
  components : List (String × Component)
  layout : List String
deriving DecidableEq

/-- Lookup in the components record (first binding wins). -/
def lookupC : List (String × Component) → String → Option Component
  | [], _ => none
  | (k, v) :: rest, key => if k = key then some v else lookupC rest key

/-- Own-key presence in the components record — what `Object.keys`,
`in`-style ownership and JS `delete` see. -/
def hasKey (m : List (String × Component)) (k : String) : Bool :=
  (lookupC m k).isSome

/-- The string-keyed `Object.prototype` properties.  A property read of
any of these names on a plain object returns a function (or, for
`__proto__`, the prototype object itself) — all truthy.  Among them only
"constructor" matches the ComponentId format. -/
def protoTruthyNames : List String :=
  ["constructor", "hasOwnProperty", "isPrototypeOf", "propertyIsEnumerable",
   "toLocaleString", "toString", "valueOf", "__proto__", "__defineGetter__",
   "__defineSetter__", "__lookupGetter__", "__lookupSetter__"]

/-- Truthiness test `Boolean(next.components[id])` from the source: an own
key (stored components are objects, hence truthy), or a read that falls
through to `Object.prototype`. -/
def jsTruthy (m : List (String × Component)) (k : String) : Bool :=
  hasKey m k || decide (k ∈ protoTruthyNames)

/-- JS object assignment `m[k] = v`: overwrite in place if the key exists,
otherwise append the new binding. -/
def setC : List (String × Component) → String → Component → List (String × Component)
  | [], k, v => [(k, v)]
  | (k', v') :: rest, k, v =>
    if k' = k then (k, v) :: rest else (k', v') :: setC rest k v

/-- JS `delete m[k]`: drop the binding for `k` (a JS object holds at most
one binding per key; removing every occurrence keeps the model total). -/
def delC : List (String × Component) → String → List (String × Component)
  | [], _ => []
  | (k', v') :: rest, k =>
    if k' = k then delC rest k else (k', v') :: delC rest k

/-- `Object.keys`. -/
def keys (m : List (String × Component)) : List String :=
  m.map Prod.fst

/-- `uniqKeepOrder` from applyPatch.ts, with the `seen` set made explicit. -/
def uniqKeepOrderAux : List String → List String → List String
  | [], _ => []
  | id :: rest, seen =>
    if id ∈ seen then uniqKeepOrderAux rest seen
    else id :: uniqKeepOrderAux rest (id :: seen)

def uniqKeepOrder (ids : List String) : List String :=
  uniqKeepOrderAux ids []

/-- `clampIndex` from applyPatch.ts: NaN and non-finite indexes become the
current length; finite indexes are clamped as `max 0 (min index length)`. -/
def clampIndex (index : JsNum) (length : Nat) : Nat :=
  match index with
  | .nan => length
  | .posInf => length
  | .negInf => length
  | .int n => (max 0 (min n (length : Int))).toNat

/-- `removeAll` from applyPatch.ts. -/
def removeAll (layout : List String) (componentId : String) : List String :=
  layout.filter (fun id => decide (id ≠ componentId))

/-- `layout.splice(idx, 0, id)` for `idx ≤ layout.length`. -/
def spliceInsert (layout : List String) (idx : Nat) (id : String) : List String :=
  layout.take idx ++ id :: layout.drop idx

/-- `normalizeLayout` from applyPatch.ts: dedupe keeping first occurrence,
drop dangling ids, truncate to 200 entries. -/
def normalizeLayout (next : ScreenState) : ScreenState :=
  { next with
    layout :=
      (((uniqKeepOrder next.layout).filter (fun id => jsTruthy next.components id)).take 200) }

/-- `applyUpserts` from applyPatch.ts: overwrite each component and record
ids that were absent from the previous components record (a JS `Set`,
modelled as a duplicate-free list in insertion order). -/
def applyUpserts :
    ScreenState → List UpsertEntry → List String → List String → ScreenState × List String
  | next, [], _, newly => (next, newly)
  | next, comp :: rest, prevIds, newly =>
    applyUpserts
      { next with components := setC next.components comp.id ⟨comp.name, comp.html⟩ }
      rest prevIds
      (if comp.id ∉ prevIds ∧ comp.id ∉ newly then newly ++ [comp.id] else newly)

/-- `applyDeletes` from applyPatch.ts. -/
def applyDeletes : ScreenState → List String → ScreenState
  | next, [] => next
  | next, id :: rest =>
    applyDeletes
      { next with components := delC next.components id, layout := removeAll next.layout id }
      rest

/-- One case of the `switch` in `applyLayoutOps` from applyPatch.ts. -/
def applyLayoutOp (next : ScreenState) (op : LayoutOp) : ScreenState :=
  match op with
  | .set layout =>
    { next with layout := layout.filter (fun id => jsTruthy next.components id) }
  | .remove cid =>
    { next with layout := removeAll next.layout cid }
  | .insert cid index =>
    if jsTruthy next.components cid then
      let l := removeAll next.layout cid
      { next with layout := spliceInsert l (clampIndex index l.length) cid }
    else next
  | .move cid toIndex =>
    if jsTruthy next.components cid then
      if cid ∈ next.layout then
        let l := removeAll next.layout cid
        { next with layout := spliceInsert l (clampIndex toIndex l.length) cid }
      else next
    else next

def applyLayoutOps : ScreenState → List LayoutOp → ScreenState
  | next, [] => next
  | next, op :: rest => applyLayoutOps (applyLayoutOp next op) rest

/-- `appendNewComponentsToLayout` from applyPatch.ts. -/
def appendNewComponentsToLayout : ScreenState → List String → ScreenState
  | next, [] => next
  | next, id :: rest =>
    if jsTruthy next.components id then
      if id ∈ next.layout then appendNewComponentsToLayout next rest
      else appendNewComponentsToLayout { next with layout := next.layout ++ [id] } rest
    else appendNewComponentsToLayout next rest

/-- `patch.title ?? prev.title`. -/
def jsOr (a b : Option String) : Option String :=
  match a with
  | some x => some x
  | none => b

/-- The fresh `next` state built at the top of `applyPatch`. -/
def patchBase (prev : ScreenState) (patch : Patch) : ScreenState :=
  { title := jsOr patch.title prev.title
    globalCss := jsOr patch.globalCss prev.globalCss
    components := prev.components
    layout := prev.layout }

/-- Steps 1-4 of `applyPatch`: copy, upserts, deletes, layout ops; also
returns the newly-added-id set produced by the upsert step. -/
def patchStages (prev : ScreenState) (patch : Patch) : ScreenState × List String :=
  let su := applyUpserts (patchBase prev patch) patch.upsert_components (keys prev.components) []
  (applyLayoutOps (applyDeletes su.1 patch.delete_components) patch.layout_patch, su.2)

/-- `applyPatch` from applyPatch.ts. -/
def applyPatch (prev : ScreenState) (patch : Patch) : ScreenState :=
  let st := patchStages prev patch
  normalizeLayout (appendNewComponentsToLayout st.1 st.2)

/-- Head character class of `componentIdSchema`'s regex. -/
def isIdHeadChar (c : Char) : Bool :=
  ('a' ≤ c && c ≤ 'z') || ('0' ≤ c && c ≤ '9')

/-- Tail character class of `componentIdSchema`'s regex. -/
def isIdTailChar (c : Char) : Bool :=
  isIdHeadChar c || c = '-' || c = '_'

/-- `componentIdSchema` from screenSchema.ts: 1-64 chars, regex
`[a-z0-9][a-z0-9-_]*` anchored on both sides. -/
def isValidComponentId (s : String) : Bool :=
  match s.data with
  | [] => false
  | c :: cs => isIdHeadChar c && cs.all isIdTailChar && decide (s.length ≤ 64)

/-- Invariant 1 of the data model: no dangling layout ids. -/
@[reducible] def layoutConsistent (s : ScreenState) : Prop :=
  ∀ id ∈ s.layout, hasKey s.components id = true

/-- Invariant 4 of the data model: well-formed component keys. -/
@[reducible] def wellFormedKeys (s : ScreenState) : Prop :=
  ∀ k ∈ keys s.components, isValidComponentId k = true

/-- The four Screen invariants of the data model. -/
@[reducible] def screenInvariant (s : ScreenState) : Prop :=
  layoutConsistent s ∧ s.layout.Nodup ∧ s.layout.length ≤ 200 ∧ wellFormedKeys s

/-- A Patch as produced by `patchSchema`: upserted ids went through
`componentIdSchema`. -/
@[reducible] def patchWellFormed (p : Patch) : Prop :=
  ∀ u ∈ p.upsert_components, isValidComponentId u.id = true

/-- Auxiliary description of the upsert step: the value the upsert list
assigns to key `k`, with later entries overwriting earlier ones. -/
def upsVal : List UpsertEntry → String → Option Component
  | [], _ => none
  | u :: rest, k =>
    match upsVal rest k with
    | some v => some v
    | none => if u.id = k then some ⟨u.name, u.html⟩ else none

/-!
### The HTML-stripping pass of renderScreen.ts

`stripScriptsAndHandlers` applies three global regex replacements in order:
1. `<script\b[^<]*(?:(?!<\/script>)<[^<]*)*<\/script>` (case-insensitive):
   a script element extending to the first following `</script>`;
2. `\son[a-z]+\s*=\s*(['"])[\s\S]*?\1` (case-insensitive): a quoted inline
   handler attribute;
3. `\son[a-z]+\s*=\s*[^\s>]+` (case-insensitive): an unquoted one.
Each pass scans left to right, resumes after a removed match, and advances
one character when no match starts at the current position — exactly
`String.prototype.replace` with a `g` flag.  The backtracking of these
particular patterns is deterministic, so each is a straight scan.  The
scans are written with an explicit fuel argument (instantiated with the
input length, which every step strictly decreases) to keep the recursion
structural. Case-insensitivity without the `u` flag folds ASCII only.
-/

def lowerAscii (c : Char) : Char :=
  if 'A' ≤ c && c ≤ 'Z' then Char.ofNat (c.toNat + 32) else c

/-- Case-insensitive literal match of `pat` at the head of the input. -/
def ciStartsWith : List Char → List Char → Bool
  | [], _ => true
  | _ :: _, [] => false
  | p :: ps, c :: cs => (lowerAscii c == p) && ciStartsWith ps cs

/-- JS regex `\w`, used for the `\b` boundary after `<script`. -/
def isWordChar (c : Char) : Bool :=
  ('a' ≤ c && c ≤ 'z') || ('A' ≤ c && c ≤ 'Z') || ('0' ≤ c && c ≤ '9') || c == '_'

/-- `[a-z]` under the regex `i` flag. -/
def isAsciiLetter (c : Char) : Bool :=
  ('a' ≤ c && c ≤ 'z') || ('A' ≤ c && c ≤ 'Z')

/-- JS regex `\s` (the WhiteSpace and LineTerminator code points). -/
def isJsSpace (c : Char) : Bool :=
  c.toNat == 9 || c.toNat == 10 || c.toNat == 11 || c.toNat == 12 || c.toNat == 13 ||
  c.toNat == 32 || c.toNat == 160 || c.toNat == 5760 ||
  (8192 ≤ c.toNat && c.toNat ≤ 8202) || c.toNat == 8232 || c.toNat == 8233 ||
  c.toNat == 8239 || c.toNat == 8287 || c.toNat == 12288 || c.toNat == 65279

def scriptOpenPat : List Char :=
  ['<', 's', 'c', 'r', 'i', 'p', 't']

def scriptClosePat : List Char :=
  ['<', '/', 's', 'c', 'r', 'i', 'p', 't', '>']

/-- `<script\b` matches at the head of the input. -/
def scriptStartsAt (l : List Char) : Bool :=
  ciStartsWith scriptOpenPat l &&
    (match l.drop 7 with
     | [] => true
     | c :: _ => !isWordChar c)

/-- Scan for the first `</script>` (case-insensitive); on success return
the input after its final `>`. -/
def findCloseScript : List Char → Option (List Char)
  | [] => none
  | c :: cs =>
    if ciStartsWith scriptClosePat (c :: cs) then some (cs.drop 8)
    else findCloseScript cs

/-- One global-replace scan for regex 1 (see module comment for fuel). -/
def stripScriptsGo : Nat → List Char → List Char
  | 0, l => l
  | _ + 1, [] => []
  | fuel + 1, c :: cs =>
    if scriptStartsAt (c :: cs) then
      match findCloseScript (cs.drop 6) with
      | some rest => stripScriptsGo fuel rest
      | none => c :: stripScriptsGo fuel cs
    else c :: stripScriptsGo fuel cs

/-- The double-quote character. -/
def quoteD : Char := Char.ofNat 34

/-- The single-quote character. -/
def quoteS : Char := Char.ofNat 39

/-- Lazy scan to the closing quote `q`; on success return the rest. -/
def findQuote (q : Char) : List Char → Option (List Char)
  | [] => none
  | c :: cs => if c == q then some cs else findQuote q cs

/-- Regex 2 matching at the head of the input; on success return the rest
of the input after the match. -/
def matchQuotedHandler (l : List Char) : Option (List Char) :=
  match l with
  | c :: o :: n :: c3 :: rest3 =>
    if isJsSpace c && (lowerAscii o == 'o') && (lowerAscii n == 'n') && isAsciiLetter c3 then
      match (rest3.dropWhile isAsciiLetter).dropWhile isJsSpace with
      | e :: rest4 =>
        if e == '=' then
          match rest4.dropWhile isJsSpace with
          | q :: rest5 =>
            if q == quoteD || q == quoteS then findQuote q rest5 else none
          | [] => none
        else none
      | [] => none
    else none
  | _ => none

/-- Regex 3 matching at the head of the input; on success return the rest
of the input after the match. -/
def matchUnquotedHandler (l : List Char) : Option (List Char) :=
  match l with
  | c :: o :: n :: c3 :: rest3 =>
    if isJsSpace c && (lowerAscii o == 'o') && (lowerAscii n == 'n') && isAsciiLetter c3 then
      match (rest3.dropWhile isAsciiLetter).dropWhile isJsSpace with
      | e :: rest4 =>
        if e == '=' then
          match rest4.dropWhile isJsSpace with
          | v :: rest5 =>
            if v == '>' then none
            else some (rest5.dropWhile (fun x => !(isJsSpace x || x == '>')))
          | [] => none
        else none
      | [] => none
    else none
  | _ => none

/-- One global-replace scan for regex 2. -/
def stripQuotedGo : Nat → List Char → List Char
  | 0, l => l
  | _ + 1, [] => []
  | fuel + 1, c :: cs =>
    match matchQuotedHandler (c :: cs) with
    | some rest => stripQuotedGo fuel rest
    | none => c :: stripQuotedGo fuel cs

/-- One global-replace scan for regex 3. -/
def stripUnquotedGo : Nat → List Char → List Char
  | 0, l => l
  | _ + 1, [] => []
  | fuel + 1, c :: cs =>
    match matchUnquotedHandler (c :: cs) with
    | some rest => stripUnquotedGo fuel rest
    | none => c :: stripUnquotedGo fuel cs

/-- `stripScriptsAndHandlers` from renderScreen.ts. -/
def stripScriptsAndHandlers (s : String) : String :=
  let l1 := stripScriptsGo s.data.length s.data
  let l2 := stripQuotedGo l1.length l1
  String.mk (stripUnquotedGo l2.length l2)

/-- A `<script>` element (per regex 1) starts somewhere in the input. -/
def hasScriptElement : List Char → Bool
  | [] => false
  | c :: cs =>
    (scriptStartsAt (c :: cs) && (findCloseScript (cs.drop 6)).isSome) ||
      hasScriptElement cs

/-- An inline `on*=` handler attribute (per regex 2 or 3) starts somewhere
in the input. -/
def hasInlineHandler : List Char → Bool
  | [] => false
  | c :: cs =>
    (matchQuotedHandler (c :: cs)).isSome || (matchUnquotedHandler (c :: cs)).isSome ||
      hasInlineHandler cs

/-! ### Concrete inputs used by witnesses and counterexamples -/

def exComp : Component := ⟨"Name", "<div>hi</div>"⟩

def exABC : ScreenState :=
  ⟨none, none, [("a", exComp), ("b", exComp), ("c", exComp)], ["a", "b", "c"]⟩

/-- 250 pairwise-distinct two-letter ids. -/
def wIds : List String :=
  (List.range 250).map (fun n => String.mk [Char.ofNat (97 + n % 26), Char.ofNat (97 + n / 26)])

/-- A screen holding a component for each of the 250 ids. -/
def wState : ScreenState := ⟨none, none, wIds.map (fun id => (id, exComp)), []⟩

/-- The empty screen. -/
def emptyScreen : ScreenState := ⟨none, none, [], []⟩

/-- A screen whose layout holds the dangling Object.prototype name. -/
def sCtor : ScreenState :=
  ⟨none, none, [("a", exComp), ("b", exComp)], ["a", "constructor", "b"]⟩

/-- Adversarial input: removing the two quoted handlers splices the
surrounding text into a script element. -/
def cexC8 : String := "<scr onx=\"q\"ipt>alert(1)</scr onx=\"q\"ipt>"

/-! ### Association-list lemmas -/

theorem lookupC_setC_self (m : List (String × Component)) (k : String) (v : Component) :
    lookupC (setC m k v) k = some v := by
  induction m with
  | nil => simp [setC, lookupC]
  | cons e rest ih =>
    obtain ⟨k', v'⟩ := e
    by_cases h : k' = k
    · simp [setC, h, lookupC]
    · simp [setC, h, lookupC, ih]

theorem lookupC_setC_ne (m : List (String × Component)) (k k' : String) (v : Component)
    (h : k' ≠ k) : lookupC (setC m k v) k' = lookupC m k' := by
  have hne : k ≠ k' := Ne.symm h
  induction m with
  | nil => simp [setC, lookupC, hne]
  | cons e rest ih =>
    obtain ⟨k₀, v₀⟩ := e
    by_cases h0 : k₀ = k
    · subst h0
      simp [setC, lookupC, hne]
    · simp [setC, h0, lookupC, ih]

theorem hasKey_setC (m : List (String × Component)) (k k' : String) (v : Component) :
    hasKey (setC m k v) k' = (decide (k' = k) || hasKey m k') := by
  by_cases h : k' = k
  · subst h
    simp [hasKey, lookupC_setC_self]
  · simp [hasKey, lookupC_setC_ne m k k' v h, h]

theorem keys_setC_of_has (m : List (String × Component)) (k : String) (v : Component)
    (h : hasKey m k = true) : keys (setC m k v) = keys m := by
  induction m with
  | nil => simp [hasKey, lookupC] at h
  | cons e rest ih =>
    obtain ⟨k₀, v₀⟩ := e
    by_cases h0 : k₀ = k
    · simp [setC, h0, keys]
    · simp [hasKey, lookupC, h0] at h
      simp [setC, h0, keys, hasKey] at ih ⊢
      exact ih h

theorem keys_setC_of_not (m : List (String × Component)) (k : String) (v : Component)
    (h : hasKey m k = false) : keys (setC m k v) = keys m ++ [k] := by
  induction m with
  | nil => simp [setC, keys]
  | cons e rest ih =>
    obtain ⟨k₀, v₀⟩ := e
    by_cases h0 : k₀ = k
    · simp [hasKey, lookupC, h0] at h
    · simp [hasKey, lookupC, h0] at h
      simp [setC, h0, keys, hasKey] at ih ⊢
      exact ih h

theorem hasKey_iff_mem_keys (m : List (String × Component)) (k : String) :
    hasKey m k = true ↔ k ∈ keys m := by
  induction m with
  | nil => simp [hasKey, lookupC, keys]
  | cons e rest ih =>
    obtain ⟨k₀, v₀⟩ := e
    by_cases h0 : k₀ = k
    · simp [hasKey, lookupC, h0, keys]
    · simp [hasKey, lookupC, h0, keys, Ne.symm h0] at ih ⊢
      exact ih

theorem lookupC_eq_none_of_not_mem (m : List (String × Component)) (k : String)
    (h : k ∉ keys m) : lookupC m k = none := by
  induction m with
  | nil => simp [lookupC]
  | cons e rest ih =>
    obtain ⟨k₀, v₀⟩ := e
    simp [keys] at h ih
    simp [lookupC, Ne.symm h.1, ih h.2]

theorem nodupKeys_setC (m : List (String × Component)) (k : String) (v : Component)
    (h : (keys m).Nodup) : (keys (setC m k v)).Nodup := by
  by_cases hk : hasKey m k = true
  · rw [keys_setC_of_has m k v hk]; exact h
  · rw [keys_setC_of_not m k v (by simpa using hk)]
    have : k ∉ keys m := by
      intro hm
      exact hk ((hasKey_iff_mem_keys m k).mpr hm)
    simp [List.nodup_append, h, this]

theorem lookupC_delC_self (m : List (String × Component)) (k : String) :
    lookupC (delC m k) k = none := by
  induction m with
  | nil => simp [delC, lookupC]
  | cons e rest ih =>
    obtain ⟨k₀, v₀⟩ := e
    by_cases h0 : k₀ = k
    · simpa [delC, h0] using ih
    · simpa [delC, h0, lookupC] using ih

theorem lookupC_delC_ne (m : List (String × Component)) (k k' : String) (h : k' ≠ k) :
    lookupC (delC m k) k' = lookupC m k' := by
  have hne : k ≠ k' := Ne.symm h
  induction m with
  | nil => simp [delC, lookupC]
  | cons e rest ih =>
    obtain ⟨k₀, v₀⟩ := e
    by_cases h0 : k₀ = k
    · subst h0
      simpa [delC, lookupC, hne] using ih
    · simp [delC, h0, lookupC, ih]

theorem hasKey_delC (m : List (String × Component)) (k k' : String) :
    hasKey (delC m k) k' = (decide (k' ≠ k) && hasKey m k') := by
  by_cases h : k' = k
  · subst h
    simp [hasKey, lookupC_delC_self]
  · simp [hasKey, lookupC_delC_ne m k k' h, h]

theorem delC_eq_self_of_not_has (m : List (String × Component)) (k : String)
    (h : hasKey m k = false) : delC m k = m := by
  induction m with
  | nil => simp [delC]
  | cons e rest ih =>
    obtain ⟨k₀, v₀⟩ := e
    by_cases h0 : k₀ = k
    · simp [hasKey, lookupC, h0] at h
    · simp only [hasKey, lookupC, h0, if_false] at h
      simp [delC, h0, ih (by simpa [hasKey] using h)]

theorem alist_ext (m₁ m₂ : List (String × Component))
    (hkeys : keys m₁ = keys m₂) (hnd : (keys m₁).Nodup)
    (hlook : ∀ k, lookupC m₁ k = lookupC m₂ k) : m₁ = m₂ := by
  induction m₁ generalizing m₂ with
  | nil =>
    cases m₂ with
    | nil => rfl
    | cons e rest => simp [keys] at hkeys
  | cons e rest ih =>
    obtain ⟨k, v⟩ := e
    cases m₂ with
    | nil => simp [keys] at hkeys
    | cons e₂ rest₂ =>
      obtain ⟨k₂, v₂⟩ := e₂
      simp only [keys, List.map_cons, List.cons.injEq] at hkeys
      obtain ⟨hk, htail⟩ := hkeys
      subst hk
      simp only [keys, List.map_cons, List.nodup_cons] at hnd
      have hv : v = v₂ := by
        have := hlook k
        simpa [lookupC] using this
      subst hv
      have hmem1 : k ∉ keys rest := by simpa [keys] using hnd.1
      have hmem2 : k ∉ keys rest₂ := by
        simpa [keys, ← htail] using hnd.1
      have htl : ∀ key, lookupC rest key = lookupC rest₂ key := by
        intro key
        by_cases hkk : key = k
        · subst hkk
          rw [lookupC_eq_none_of_not_mem rest key hmem1,
            lookupC_eq_none_of_not_mem rest₂ key hmem2]
        · have hstep := hlook key
          simpa [lookupC, Ne.symm hkk] using hstep
      rw [ih rest₂ htail (by simpa [keys] using hnd.2) htl]

/-! ### uniqKeepOrder and normalizeLayout lemmas -/

theorem mem_uniqKeepOrderAux (x : String) (l : List String) :
    ∀ seen, x ∈ uniqKeepOrderAux l seen ↔ x ∈ l ∧ x ∉ seen := by
  induction l with
  | nil => intro seen; simp [uniqKeepOrderAux]
  | cons id rest ih =>
    intro seen
    by_cases h : id ∈ seen
    · simp only [uniqKeepOrderAux, if_pos h, ih, List.mem_cons]
      constructor
      · rintro ⟨hx, hs⟩; exact ⟨Or.inr hx, hs⟩
      · rintro ⟨hx | hx, hs⟩
        · subst hx; exact absurd h hs
        · exact ⟨hx, hs⟩
    · simp only [uniqKeepOrderAux, if_neg h, List.mem_cons, ih]
      by_cases hx : x = id
      · subst hx; simp [h]
      · simp [hx]

theorem uniqKeepOrderAux_nodup (l : List String) :
    ∀ seen, (uniqKeepOrderAux l seen).Nodup := by
  induction l with
  | nil => intro seen; simp [uniqKeepOrderAux]
  | cons id rest ih =>
    intro seen
    by_cases h : id ∈ seen
    · simpa [uniqKeepOrderAux, h] using ih seen
    · simp only [uniqKeepOrderAux, if_neg h, List.nodup_cons]
      refine ⟨fun hmem => ?_, ih (id :: seen)⟩
      exact ((mem_uniqKeepOrderAux id rest (id :: seen)).mp hmem).2 (by simp)

theorem uniqKeepOrderAux_eq_self (l : List String) :
    ∀ seen, l.Nodup → (∀ x ∈ l, x ∉ seen) → uniqKeepOrderAux l seen = l := by
  induction l with
  | nil => intro seen _ _; rfl
  | cons id rest ih =>
    intro seen hnd hdis
    have hid : id ∉ seen := hdis id (by simp)
    simp only [uniqKeepOrderAux, if_neg hid]
    rw [ih (id :: seen) (List.nodup_cons.mp hnd).2]
    intro x hx
    simp only [List.mem_cons]
    rintro (rfl | hs)
    · exact (List.nodup_cons.mp hnd).1 hx
    · exact hdis x (by simp [hx]) hs

theorem uniqKeepOrder_nodup (l : List String) : (uniqKeepOrder l).Nodup :=
  uniqKeepOrderAux_nodup l []

theorem uniqKeepOrder_eq_self (l : List String) (h : l.Nodup) : uniqKeepOrder l = l :=
  uniqKeepOrderAux_eq_self l [] h (by simp)

theorem uniqKeepOrderAux_congr (l : List String) :
    ∀ seen₁ seen₂, (∀ x, x ∈ seen₁ ↔ x ∈ seen₂) →
      uniqKeepOrderAux l seen₁ = uniqKeepOrderAux l seen₂ := by
  induction l with
  | nil => intro _ _ _; rfl
  | cons id rest ih =>
    intro seen₁ seen₂ h
    by_cases hm : id ∈ seen₁
    · rw [uniqKeepOrderAux, uniqKeepOrderAux, if_pos hm, if_pos ((h id).mp hm),
        ih seen₁ seen₂ h]
    · rw [uniqKeepOrderAux, uniqKeepOrderAux, if_neg hm, if_neg (fun hc => hm ((h id).mpr hc))]
      rw [ih (id :: seen₁) (id :: seen₂) (by intro x; simp [h x])]

theorem normalizeLayout_components (s : ScreenState) :
    (normalizeLayout s).components = s.components := rfl

theorem normalizeLayout_title (s : ScreenState) :
    (normalizeLayout s).title = s.title := rfl

theorem normalizeLayout_globalCss (s : ScreenState) :
    (normalizeLayout s).globalCss = s.globalCss := rfl

theorem normalizeLayout_nodup (s : ScreenState) : (normalizeLayout s).layout.Nodup :=
  List.Nodup.sublist (List.take_sublist _ _)
    (List.Nodup.filter _ (uniqKeepOrder_nodup s.layout))

theorem jsTruthy_of_hasKey (m : List (String × Component)) (k : String)
    (h : hasKey m k = true) : jsTruthy m k = true := by
  simp [jsTruthy, h]

theorem mem_normalizeLayout (s : ScreenState) (x : String)
    (h : x ∈ (normalizeLayout s).layout) : jsTruthy s.components x = true := by
  have h1 : x ∈ (uniqKeepOrder s.layout).filter (fun id => jsTruthy s.components id) :=
    List.mem_of_mem_take h
  exact (List.mem_filter.mp h1).2

theorem mem_layout_of_mem_normalizeLayout (s : ScreenState) (x : String)
    (h : x ∈ (normalizeLayout s).layout) : x ∈ s.layout := by
  have h1 : x ∈ (uniqKeepOrder s.layout).filter (fun id => jsTruthy s.components id) :=
    List.mem_of_mem_take h
  exact ((mem_uniqKeepOrderAux x s.layout []).mp (List.mem_filter.mp h1).1).1

theorem normalizeLayout_length (s : ScreenState) :
    (normalizeLayout s).layout.length ≤ 200 := by
  simp only [normalizeLayout, List.length_take]
  exact Nat.min_le_left _ _

theorem normalizeLayout_eq_self (s : ScreenState) (h1 : s.layout.Nodup)
    (h2 : ∀ x ∈ s.layout, jsTruthy s.components x = true) (h3 : s.layout.length ≤ 200) :
    normalizeLayout s = s := by
  have : (((uniqKeepOrder s.layout).filter (fun id => jsTruthy s.components id)).take 200)
      = s.layout := by
    rw [uniqKeepOrder_eq_self s.layout h1, List.filter_eq_self.mpr h2,
      List.take_of_length_le h3]
  cases s
  simp only [normalizeLayout] at this ⊢
  simp [this]

/-! ### Membership in removeAll -/

theorem mem_removeAll (x c : String) (l : List String) :
    x ∈ removeAll l c ↔ x ∈ l ∧ x ≠ c := by
  simp [removeAll, List.mem_filter]

theorem not_mem_removeAll (c : String) (l : List String) : c ∉ removeAll l c := by
  intro h
  exact ((mem_removeAll c c l).mp h).2 rfl

theorem removeAll_eq_self (c : String) (l : List String) (h : c ∉ l) :
    removeAll l c = l := by
  apply List.filter_eq_self.mpr
  intro a ha
  simp only [decide_eq_true_eq]
  intro he
  subst he
  exact h ha

/-! ### Field preservation and characterization of the pipeline stages -/

theorem applyUpserts_fst_title (ups : List UpsertEntry) :
    ∀ next prevIds newly, ((applyUpserts next ups prevIds newly).1).title = next.title := by
  induction ups with
  | nil => intro next _ _; rfl
  | cons u rest ih => intro next prevIds newly; simpa [applyUpserts] using ih _ _ _

theorem applyUpserts_fst_globalCss (ups : List UpsertEntry) :
    ∀ next prevIds newly, ((applyUpserts next ups prevIds newly).1).globalCss = next.globalCss := by
  induction ups with
  | nil => intro next _ _; rfl
  | cons u rest ih => intro next prevIds newly; simpa [applyUpserts] using ih _ _ _

theorem applyUpserts_fst_layout (ups : List UpsertEntry) :
    ∀ next prevIds newly, ((applyUpserts next ups prevIds newly).1).layout = next.layout := by
  induction ups with
  | nil => intro next _ _; rfl
  | cons u rest ih => intro next prevIds newly; simpa [applyUpserts] using ih _ _ _

theorem applyUpserts_lookup (ups : List UpsertEntry) :
    ∀ next prevIds newly k,
      lookupC ((applyUpserts next ups prevIds newly).1).components k =
        (match upsVal ups k with
         | some v => some v
         | none => lookupC next.components k) := by
  induction ups with
  | nil => intro next _ _ k; rfl
  | cons u rest ih =>
    intro next prevIds newly k
    rw [applyUpserts, ih]
    show _ = (match upsVal (u :: rest) k with
      | some v => some v
      | none => lookupC next.components k)
    rw [upsVal]
    cases hrest : upsVal rest k with
    | some v => simp
    | none =>
      simp only
      by_cases hk : u.id = k
      · subst hk
        simp [lookupC_setC_self]
      · simp [hk, lookupC_setC_ne next.components u.id k _ (Ne.symm hk)]

theorem upsVal_isSome_of_mem (ups : List UpsertEntry) (u : UpsertEntry) (h : u ∈ ups) :
    (upsVal ups u.id).isSome = true := by
  induction ups with
  | nil => simp at h
  | cons u' rest ih =>
    rcases List.mem_cons.mp h with h1 | h2
    · subst h1
      rw [upsVal]
      cases hrest : upsVal rest u.id <;> simp
    · rw [upsVal]
      have := ih h2
      cases hrest : upsVal rest u.id with
      | some v => simp
      | none => rw [hrest] at this; simp at this

theorem applyUpserts_snd (ups : List UpsertEntry) :
    ∀ next prevIds newly,
      (applyUpserts next ups prevIds newly).2 =
        newly ++ uniqKeepOrderAux
          ((ups.map UpsertEntry.id).filter (fun id => decide (id ∉ prevIds))) newly := by
  induction ups with
  | nil => intro next prevIds newly; simp [applyUpserts, uniqKeepOrderAux]
  | cons u rest ih =>
    intro next prevIds newly
    rw [applyUpserts]
    by_cases hp : u.id ∈ prevIds
    · rw [if_neg (by simp [hp]), ih]
      simp [hp]
    · by_cases hn : u.id ∈ newly
      · rw [if_neg (by simp [hp, hn]), ih]
        simp [hp, uniqKeepOrderAux, hn]
      · rw [if_pos ⟨hp, hn⟩, ih]
        simp only [List.map_cons, List.filter_cons, decide_eq_true_eq, hp,
          not_false_iff, if_pos, uniqKeepOrderAux, hn, if_neg]
        rw [uniqKeepOrderAux_congr _ (newly ++ [u.id]) (u.id :: newly) (by intro x; simp; tauto)]
        simp [uniqKeepOrderAux, hn]

theorem applyUpserts_snd_of_all_prev (ups : List UpsertEntry) (next : ScreenState)
    (prevIds newly : List String) (h : ∀ u ∈ ups, u.id ∈ prevIds) :
    (applyUpserts next ups prevIds newly).2 = newly := by
  rw [applyUpserts_snd]
  have : (ups.map UpsertEntry.id).filter (fun id => decide (id ∉ prevIds)) = [] := by
    apply List.filter_eq_nil_iff.mpr
    intro a ha
    rcases List.mem_map.mp ha with ⟨u, hu, rfl⟩
    simp [h u hu]
  rw [this]
  simp [uniqKeepOrderAux]

theorem keys_applyUpserts_of_has (ups : List UpsertEntry) :
    ∀ next prevIds newly, (∀ u ∈ ups, hasKey next.components u.id = true) →
      keys ((applyUpserts next ups prevIds newly).1).components = keys next.components := by
  induction ups with
  | nil => intro next _ _ _; rfl
  | cons u rest ih =>
    intro next prevIds newly h
    rw [applyUpserts, ih]
    · exact keys_setC_of_has _ _ _ (h u (by simp))
    · intro u' hu'
      show hasKey (setC next.components u.id _) u'.id = true
      rw [hasKey_setC]
      simp [h u' (by simp [hu'])]

theorem nodupKeys_applyUpserts (ups : List UpsertEntry) :
    ∀ next prevIds newly, (keys next.components).Nodup →
      (keys ((applyUpserts next ups prevIds newly).1).components).Nodup := by
  induction ups with
  | nil => intro next _ _ h; exact h
  | cons u rest ih =>
    intro next prevIds newly h
    rw [applyUpserts]
    exact ih _ _ _ (nodupKeys_setC _ _ _ h)

theorem mem_keys_applyUpserts (ups : List UpsertEntry) :
    ∀ next prevIds newly k,
      k ∈ keys ((applyUpserts next ups prevIds newly).1).components →
      k ∈ keys next.components ∨ k ∈ ups.map UpsertEntry.id := by
  induction ups with
  | nil => intro next _ _ k h; exact Or.inl h
  | cons u rest ih =>
    intro next prevIds newly k h
    rw [applyUpserts] at h
    rcases ih _ _ _ k h with h1 | h2
    · by_cases hk : hasKey next.components u.id = true
      · rw [keys_setC_of_has _ _ _ hk] at h1
        exact Or.inl h1
      · rw [keys_setC_of_not _ _ _ (by simpa using hk)] at h1
        rcases List.mem_append.mp h1 with h3 | h3
        · exact Or.inl h3
        · simp at h3
          subst h3
          exact Or.inr (by simp)
    · exact Or.inr (by simp [h2])

theorem applyDeletes_title (dels : List String) :
    ∀ next, (applyDeletes next dels).title = next.title := by
  induction dels with
  | nil => intro next; rfl
  | cons d rest ih => intro next; simpa [applyDeletes] using ih _

theorem applyDeletes_globalCss (dels : List String) :
    ∀ next, (applyDeletes next dels).globalCss = next.globalCss := by
  induction dels with
  | nil => intro next; rfl
  | cons d rest ih => intro next; simpa [applyDeletes] using ih _

theorem hasKey_applyDeletes (dels : List String) :
    ∀ next k, hasKey (applyDeletes next dels).components k =
      (decide (k ∉ dels) && hasKey next.components k) := by
  induction dels with
  | nil => intro next k; simp [applyDeletes]
  | cons d rest ih =>
    intro next k
    rw [applyDeletes, ih]
    simp only [hasKey_delC]
    by_cases hd : k = d
    · subst hd; simp
    · by_cases hr : k ∈ rest <;> simp [hd, hr]

theorem mem_layout_applyDeletes (dels : List String) :
    ∀ next x, x ∈ (applyDeletes next dels).layout ↔ x ∈ next.layout ∧ x ∉ dels := by
  induction dels with
  | nil => intro next x; simp [applyDeletes]
  | cons d rest ih =>
    intro next x
    rw [applyDeletes, ih]
    show x ∈ removeAll next.layout d ∧ _ ↔ _
    rw [mem_removeAll]
    by_cases hd : x = d
    · subst hd; simp
    · by_cases hr : x ∈ rest <;> simp [hd, hr]

theorem applyDeletes_eq_self (dels : List String) :
    ∀ next, (∀ d ∈ dels, hasKey next.components d = false ∧ d ∉ next.layout) →
      applyDeletes next dels = next := by
  induction dels with
  | nil => intro next _; rfl
  | cons d rest ih =>
    intro next h
    rw [applyDeletes]
    have hd := h d (by simp)
    rw [delC_eq_self_of_not_has _ _ hd.1, removeAll_eq_self _ _ hd.2]
    exact ih next (fun d' hd' => h d' (by simp [hd']))

theorem applyLayoutOp_components (s : ScreenState) (op : LayoutOp) :
    (applyLayoutOp s op).components = s.components := by
  cases op with
  | set l => rfl
  | remove cid => rfl
  | insert cid i =>
    by_cases h : jsTruthy s.components cid = true <;> simp [applyLayoutOp, h]
  | move cid i =>
    by_cases h : jsTruthy s.components cid = true
    · by_cases h2 : cid ∈ s.layout <;> simp [applyLayoutOp, h, h2]
    · simp [applyLayoutOp, h]

theorem applyLayoutOp_title (s : ScreenState) (op : LayoutOp) :
    (applyLayoutOp s op).title = s.title := by
  cases op with
  | set l => rfl
  | remove cid => rfl
  | insert cid i =>
    by_cases h : jsTruthy s.components cid = true <;> simp [applyLayoutOp, h]
  | move cid i =>
    by_cases h : jsTruthy s.components cid = true
    · by_cases h2 : cid ∈ s.layout <;> simp [applyLayoutOp, h, h2]
    · simp [applyLayoutOp, h]

theorem applyLayoutOp_globalCss (s : ScreenState) (op : LayoutOp) :
    (applyLayoutOp s op).globalCss = s.globalCss := by
  cases op with
  | set l => rfl
  | remove cid => rfl
  | insert cid i =>
    by_cases h : jsTruthy s.components cid = true <;> simp [applyLayoutOp, h]
  | move cid i =>
    by_cases h : jsTruthy s.components cid = true
    · by_cases h2 : cid ∈ s.layout <;> simp [applyLayoutOp, h, h2]
    · simp [applyLayoutOp, h]

theorem applyLayoutOps_components (ops : List LayoutOp) :
    ∀ s, (applyLayoutOps s ops).components = s.components := by
  induction ops with
  | nil => intro s; rfl
  | cons op rest ih =>
    intro s
    rw [applyLayoutOps, ih, applyLayoutOp_components]

theorem applyLayoutOps_title (ops : List LayoutOp) :
    ∀ s, (applyLayoutOps s ops).title = s.title := by
  induction ops with
  | nil => intro s; rfl
  | cons op rest ih =>
    intro s
    rw [applyLayoutOps, ih, applyLayoutOp_title]

theorem applyLayoutOps_globalCss (ops : List LayoutOp) :
    ∀ s, (applyLayoutOps s ops).globalCss = s.globalCss := by
  induction ops with
  | nil => intro s; rfl
  | cons op rest ih =>
    intro s
    rw [applyLayoutOps, ih, applyLayoutOp_globalCss]

theorem appendNew_components (newly : List String) :
    ∀ s, (appendNewComponentsToLayout s newly).components = s.components := by
  induction newly with
  | nil => intro s; rfl
  | cons id rest ih =>
    intro s
    rw [appendNewComponentsToLayout]
    by_cases h : jsTruthy s.components id = true
    · by_cases h2 : id ∈ s.layout <;> simp [h, h2, ih]
    · simp [h, ih]

theorem appendNew_title (newly : List String) :
    ∀ s, (appendNewComponentsToLayout s newly).title = s.title := by
  induction newly with
  | nil => intro s; rfl
  | cons id rest ih =>
    intro s
    rw [appendNewComponentsToLayout]
    by_cases h : jsTruthy s.components id = true
    · by_cases h2 : id ∈ s.layout <;> simp [h, h2, ih]
    · simp [h, ih]

theorem appendNew_globalCss (newly : List String) :
    ∀ s, (appendNewComponentsToLayout s newly).globalCss = s.globalCss := by
  induction newly with
  | nil => intro s; rfl
  | cons id rest ih =>
    intro s
    rw [appendNewComponentsToLayout]
    by_cases h : jsTruthy s.components id = true
    · by_cases h2 : id ∈ s.layout <;> simp [h, h2, ih]
    · simp [h, ih]

theorem appendNew_layout (newly : List String) :
    ∀ s, newly.Nodup →
      (appendNewComponentsToLayout s newly).layout =
        s.layout ++ newly.filter (fun id => jsTruthy s.components id && decide (id ∉ s.layout)) := by
  induction newly with
  | nil => intro s _; simp [appendNewComponentsToLayout]
  | cons id rest ih =>
    intro s hnd
    have hid : id ∉ rest := (List.nodup_cons.mp hnd).1
    have hrest : rest.Nodup := (List.nodup_cons.mp hnd).2
    rw [appendNewComponentsToLayout]
    by_cases h : jsTruthy s.components id = true
    · by_cases h2 : id ∈ s.layout
      · rw [if_pos h, if_pos h2, ih s hrest]
        simp [h, h2]
      · rw [if_pos h, if_neg h2, ih _ hrest]
        have hfeq : rest.filter (fun x => jsTruthy s.components x && decide (x ∉ s.layout ++ [id]))
            = rest.filter (fun x => jsTruthy s.components x && decide (x ∉ s.layout)) := by
          apply List.filter_congr
          intro x hx
          have hxid : x ≠ id := fun he => hid (he ▸ hx)
          simp [List.mem_append, hxid]
        have hcond : (jsTruthy s.components id && decide (id ∉ s.layout)) = true := by
          simp [h, h2]
        show (s.layout ++ [id]) ++
            rest.filter (fun x => jsTruthy s.components x && decide (x ∉ s.layout ++ [id])) = _
        rw [hfeq, List.filter_cons, if_pos hcond, List.append_assoc, List.singleton_append]
    · rw [if_neg h, ih s hrest, List.filter_cons]
      simp [h]

/-! ### applyPatch decomposition -/

theorem applyPatch_eq (prev : ScreenState) (p : Patch) :
    applyPatch prev p =
      normalizeLayout
        (appendNewComponentsToLayout (patchStages prev p).1 (patchStages prev p).2) := rfl

theorem patchStages_fst (prev : ScreenState) (p : Patch) :
    (patchStages prev p).1 =
      applyLayoutOps
        (applyDeletes
          (applyUpserts (patchBase prev p) p.upsert_components (keys prev.components) []).1
          p.delete_components)
        p.layout_patch := rfl

theorem patchStages_snd (prev : ScreenState) (p : Patch) :
    (patchStages prev p).2 =
      (applyUpserts (patchBase prev p) p.upsert_components (keys prev.components) []).2 := rfl

theorem applyPatch_components_eq (prev : ScreenState) (p : Patch) :
    (applyPatch prev p).components =
      (applyDeletes
        (applyUpserts (patchBase prev p) p.upsert_components (keys prev.components) []).1
        p.delete_components).components := by
  rw [applyPatch_eq, normalizeLayout_components, appendNew_components, patchStages_fst,
    applyLayoutOps_components]

/-! ### Clamp and splice lemmas -/

theorem clampIndex_le (i : JsNum) (len : Nat) : clampIndex i len ≤ len := by
  cases i with
  | nan => exact le_refl _
  | posInf => exact le_refl _
  | negInf => exact le_refl _
  | int n =>
    simp only [clampIndex]
    rw [Int.toNat_le]
    omega

theorem clampIndex_neg (n : Int) (len : Nat) (h : n < 0) : clampIndex (.int n) len = 0 := by
  simp only [clampIndex]
  have hm : max 0 (min n (len : Int)) = 0 := by omega
  rw [hm]
  rfl

theorem spliceInsert_at_length (l : List String) (x : String) :
    spliceInsert l l.length x = l ++ [x] := by
  simp [spliceInsert]

theorem spliceInsert_at_zero (l : List String) (x : String) :
    spliceInsert l 0 x = x :: l := by
  simp [spliceInsert]

/-! ### Claim theorems -/

/-- C9: code bug — applyPatch does not repair every invalid prior state.
The state with components {} and layout ["constructor"] (accepted by
screenStateSchema) is unchanged by the empty Patch: normalizeLayout's
`Boolean(next.components[id])` filter keeps the dangling id, because the
property read falls through to Object.prototype. -/
theorem C9_repair_failure :
    (applyPatch ⟨none, none, [], ["constructor"]⟩ ⟨[], [], [], none, none⟩).layout
        = ["constructor"] ∧
      hasKey (applyPatch ⟨none, none, [], ["constructor"]⟩
        ⟨[], [], [], none, none⟩).components "constructor" = false := by
  constructor
  · decide
  · decide

/-- C1: code bug — applyPatch does not preserve invariant 1 for every
schema-valid Patch.  On the valid empty screen, the schema-valid op
insert("constructor", 0) passes the `Boolean(next.components[id])` guard
via Object.prototype and leaves "constructor" dangling in the layout,
with no such component key. -/
theorem C1_invariant_violation :
    screenInvariant emptyScreen ∧
      isValidComponentId "constructor" = true ∧
      "constructor" ∈ (applyPatch emptyScreen
        ⟨[], [], [LayoutOp.insert "constructor" (.int 0)], none, none⟩).layout ∧
      hasKey (applyPatch emptyScreen
        ⟨[], [], [LayoutOp.insert "constructor" (.int 0)], none, none⟩).components
        "constructor" = false := by
  refine ⟨⟨by decide, by decide, by decide, by decide⟩, by decide, by decide, by decide⟩

/-- C2 counterexample: on layout `["a","b","c"]`, `insert("b", -5)` moves
"b" to the front (`["b","a","c"]`), not to the end-of-array position the
claim predicts (`["a","c","b"]`). -/
theorem C2_counterexample :
    (applyPatch exABC ⟨[], [], [LayoutOp.insert "b" (.int (-5))], none, none⟩).layout
        = ["b", "a", "c"] ∧
      (applyPatch exABC ⟨[], [], [LayoutOp.insert "b" (.int (-5))], none, none⟩).layout
        ≠ ["a", "c", "b"] := by
  constructor
  · decide
  · decide

/-- C2 (amended): for insert and move ops on an id with a component, a NaN
or non-finite index clamps to the current end-of-array index (append); a
negative finite index clamps to 0, i.e. the id is inserted at the front,
not appended. -/
theorem C2_index_clamping (s : ScreenState) (cid : String) (n : Int)
    (hk : hasKey s.components cid = true) (hn : n < 0) :
    (applyLayoutOp s (.insert cid .nan)).layout = removeAll s.layout cid ++ [cid] ∧
    (applyLayoutOp s (.insert cid .posInf)).layout = removeAll s.layout cid ++ [cid] ∧
    (applyLayoutOp s (.insert cid .negInf)).layout = removeAll s.layout cid ++ [cid] ∧
    (applyLayoutOp s (.insert cid (.int n))).layout = cid :: removeAll s.layout cid ∧
    (cid ∈ s.layout →
      (applyLayoutOp s (.move cid .nan)).layout = removeAll s.layout cid ++ [cid] ∧
      (applyLayoutOp s (.move cid .posInf)).layout = removeAll s.layout cid ++ [cid] ∧
      (applyLayoutOp s (.move cid .negInf)).layout = removeAll s.layout cid ++ [cid] ∧
      (applyLayoutOp s (.move cid (.int n))).layout = cid :: removeAll s.layout cid) := by
  have hj : jsTruthy s.components cid = true := jsTruthy_of_hasKey _ _ hk
  refine ⟨?_, ?_, ?_, ?_, fun hm => ⟨?_, ?_, ?_, ?_⟩⟩
  · simp [applyLayoutOp, hj, clampIndex, spliceInsert_at_length]
  · simp [applyLayoutOp, hj, clampIndex, spliceInsert_at_length]
  · simp [applyLayoutOp, hj, clampIndex, spliceInsert_at_length]
  · simp [applyLayoutOp, hj, clampIndex_neg n _ hn, spliceInsert_at_zero]
  · simp [applyLayoutOp, hj, hm, clampIndex, spliceInsert_at_length]
  · simp [applyLayoutOp, hj, hm, clampIndex, spliceInsert_at_length]
  · simp [applyLayoutOp, hj, hm, clampIndex, spliceInsert_at_length]
  · simp [applyLayoutOp, hj, hm, clampIndex_neg n _ hn, spliceInsert_at_zero]

/-- C2 witness: a NaN-index insert appending at the end. -/
theorem C2_index_clamping_witness :
    (applyLayoutOp exABC (LayoutOp.insert "b" JsNum.nan)).layout
      = removeAll exABC.layout "b" ++ ["b"] :=
  (C2_index_clamping exABC "b" (-5) (by decide) (by decide)).1

/-- C4 (amended): an insert op is a no-op when the id has no component and
is not an Object.prototype property name (for such a name — of which only
"constructor" matches the ComponentId format — the truthiness guard
passes and the insert proceeds); when the id has a component and already
occurs in the layout, the op relocates it: the result holds the id
exactly once, removing the id gives the original layout minus the id, and
the id sits at the index clamped to the post-removal length. -/
theorem C4_insert_relocates (s : ScreenState) (cid : String) (i : JsNum) :
    (hasKey s.components cid = false → cid ∉ protoTruthyNames →
      applyLayoutOp s (.insert cid i) = s) ∧
    (hasKey s.components cid = true → cid ∈ s.layout →
      ((applyLayoutOp s (.insert cid i)).layout.count cid = 1 ∧
       removeAll (applyLayoutOp s (.insert cid i)).layout cid = removeAll s.layout cid ∧
       (applyLayoutOp s (.insert cid i)).layout[clampIndex i (removeAll s.layout cid).length]?
         = some cid)) := by
  constructor
  · intro h hp
    have hj : jsTruthy s.components cid = false := by
      simp [jsTruthy, h, hp]
    simp [applyLayoutOp, hj]
  · intro hk _
    have hj : jsTruthy s.components cid = true := jsTruthy_of_hasKey _ _ hk
    have hlay : (applyLayoutOp s (.insert cid i)).layout =
        spliceInsert (removeAll s.layout cid)
          (clampIndex i (removeAll s.layout cid).length) cid := by
      simp [applyLayoutOp, hj]
    have hnotmem : cid ∉ removeAll s.layout cid := not_mem_removeAll cid s.layout
    have hidx : clampIndex i (removeAll s.layout cid).length ≤ (removeAll s.layout cid).length :=
      clampIndex_le i _
    refine ⟨?_, ?_, ?_⟩
    · rw [hlay]
      simp only [spliceInsert, List.count_append, List.count_cons_self]
      have h1 : ((removeAll s.layout cid).take
          (clampIndex i (removeAll s.layout cid).length)).count cid = 0 :=
        List.count_eq_zero.mpr (fun hc => hnotmem (List.mem_of_mem_take hc))
      have h2 : ((removeAll s.layout cid).drop
          (clampIndex i (removeAll s.layout cid).length)).count cid = 0 :=
        List.count_eq_zero.mpr (fun hc => hnotmem (List.mem_of_mem_drop hc))
      rw [h1, h2]
    · rw [hlay]
      have hsplice : removeAll
          (spliceInsert (removeAll s.layout cid)
            (clampIndex i (removeAll s.layout cid).length) cid) cid
          = removeAll (removeAll s.layout cid) cid := by
        simp only [spliceInsert, removeAll, List.filter_append, List.filter_cons]
        have hxx : (decide ¬cid = cid) = false := by simp
        rw [hxx]
        simp only [Bool.false_eq_true, if_false]
        rw [← List.filter_append, List.take_append_drop]
      rw [hsplice]
      exact removeAll_eq_self cid (removeAll s.layout cid) hnotmem
    · rw [hlay]
      simp only [spliceInsert]
      have hlen : ((removeAll s.layout cid).take
          (clampIndex i (removeAll s.layout cid).length)).length
          = clampIndex i (removeAll s.layout cid).length := by
        rw [List.length_take]
        exact Nat.min_eq_left hidx
      rw [List.getElem?_append_right (by rw [hlen])]
      rw [hlen, Nat.sub_self]
      simp

/-- C4 counterexample: insert("constructor", 1) with no such component is
not a no-op — the inherited Object.prototype.constructor is truthy, so
the id is inserted into the layout and survives normalization. -/
theorem C4_counterexample :
    hasKey exABC.components "constructor" = false ∧
      (applyPatch exABC ⟨[], [], [LayoutOp.insert "constructor" (.int 1)], none, none⟩).layout
        = ["a", "constructor", "b", "c"] := by
  constructor
  · decide
  · decide

/-- C4 witness: relocating "a" to index 1 of `["a","b","c"]`. -/
theorem C4_insert_relocates_witness :
    (applyLayoutOp exABC (LayoutOp.insert "a" (JsNum.int 1))).layout.count "a" = 1 ∧
    removeAll (applyLayoutOp exABC (LayoutOp.insert "a" (JsNum.int 1))).layout "a"
        = removeAll exABC.layout "a" ∧
    (applyLayoutOp exABC (LayoutOp.insert "a" (JsNum.int 1))).layout[clampIndex (JsNum.int 1) (removeAll exABC.layout "a").length]? = some "a" :=
  (C4_insert_relocates exABC "a" (JsNum.int 1)).2 (by decide) (by decide)

/-- C6 (amended): a move op is a no-op when the id is absent from the
layout (move never inserts), and also when the id has no component and is
not an Object.prototype property name (for such a name the truthiness
guard passes and an id present in the layout is relocated); otherwise the
id is removed and reinserted at the index clamped to the post-removal
length; and on layout `["a","b","c"]`, `move("a", 2)` yields
`["b","c","a"]`. -/
theorem C6_move_semantics :
    (∀ (s : ScreenState) (cid : String) (i : JsNum), hasKey s.components cid = false →
        cid ∉ protoTruthyNames → applyLayoutOp s (.move cid i) = s) ∧
    (∀ (s : ScreenState) (cid : String) (i : JsNum), cid ∉ s.layout →
        applyLayoutOp s (.move cid i) = s) ∧
    (∀ (s : ScreenState) (cid : String) (i : JsNum),
        hasKey s.components cid = true → cid ∈ s.layout →
        (applyLayoutOp s (.move cid i)).layout =
          spliceInsert (removeAll s.layout cid)
            (clampIndex i (removeAll s.layout cid).length) cid) ∧
    (applyPatch exABC ⟨[], [], [LayoutOp.move "a" (.int 2)], none, none⟩).layout
      = ["b", "c", "a"] := by
  refine ⟨?_, ?_, ?_, by decide⟩
  · intro s cid i h hp
    have hj : jsTruthy s.components cid = false := by
      simp [jsTruthy, h, hp]
    simp [applyLayoutOp, hj]
  · intro s cid i h
    by_cases hj : jsTruthy s.components cid = true
    · simp [applyLayoutOp, hj, h]
    · simp [applyLayoutOp, hj]
  · intro s cid i hk hm
    have hj : jsTruthy s.components cid = true := jsTruthy_of_hasKey _ _ hk
    simp [applyLayoutOp, hj, hm]

/-- C6 counterexample: with "constructor" dangling in the layout and no
such component, move("constructor", 0) relocates it instead of no-opping:
the truthiness guard is satisfied via the prototype chain. -/
theorem C6_counterexample :
    hasKey sCtor.components "constructor" = false ∧
      (applyLayoutOp sCtor (LayoutOp.move "constructor" (.int 0))).layout
        = ["constructor", "a", "b"] := by
  constructor
  · decide
  · decide

/-- C6 witness: moving an id that is not in the layout is a no-op. -/
theorem C6_move_semantics_witness :
    applyLayoutOp exABC (LayoutOp.move "z" (JsNum.int 0)) = exABC :=
  C6_move_semantics.2.1 exABC "z" (JsNum.int 0) (by decide)

/-- C10 (amended): when an id is both upserted and deleted by one Patch,
the delete wins in the components mapping — afterwards the id is not a
component key — and, provided the id is not an Object.prototype property
name, it also does not occur in the layout (the auto-append safety net
does not resurrect it).  For a prototype name such as "constructor" the
safety net's truthiness test passes despite the deletion and the id is
appended to the layout. -/
theorem C10_delete_wins (prev : ScreenState) (p : Patch) (cid : String)
    (_hu : cid ∈ p.upsert_components.map UpsertEntry.id) (hd : cid ∈ p.delete_components) :
    hasKey (applyPatch prev p).components cid = false ∧
      (cid ∉ protoTruthyNames → cid ∉ (applyPatch prev p).layout) := by
  have hcomp : hasKey (applyPatch prev p).components cid = false := by
    rw [applyPatch_components_eq, hasKey_applyDeletes]
    simp [hd]
  refine ⟨hcomp, fun hp hmem => ?_⟩
  rw [applyPatch_eq] at hmem
  have h2 := mem_normalizeLayout _ cid hmem
  rw [← normalizeLayout_components, ← applyPatch_eq] at h2
  rw [jsTruthy, hcomp] at h2
  simp [hp] at h2

/-- C10 counterexample: for cid "constructor", after upsert+delete in one
patch the id is no component key, yet the safety net re-appends it to the
layout (the deleted key reads truthy via Object.prototype) and
normalization keeps it. -/
theorem C10_counterexample :
    hasKey (applyPatch exABC
        ⟨[⟨"constructor", "N", "x"⟩], ["constructor"], [], none, none⟩).components
        "constructor" = false ∧
      "constructor" ∈ (applyPatch exABC
        ⟨[⟨"constructor", "N", "x"⟩], ["constructor"], [], none, none⟩).layout := by
  constructor
  · decide
  · decide

/-- C10 witness: "n1" upserted and deleted in one patch. -/
theorem C10_delete_wins_witness :
    hasKey (applyPatch exABC ⟨[⟨"n1", "N", "x"⟩], ["n1"], [], none, none⟩).components "n1"
        = false ∧
      "n1" ∉ (applyPatch exABC ⟨[⟨"n1", "N", "x"⟩], ["n1"], [], none, none⟩).layout :=
  ⟨(C10_delete_wins exABC ⟨[⟨"n1", "N", "x"⟩], ["n1"], [], none, none⟩ "n1"
      (by decide) (by decide)).1,
   (C10_delete_wins exABC ⟨[⟨"n1", "N", "x"⟩], ["n1"], [], none, none⟩ "n1"
      (by decide) (by decide)).2 (by decide)⟩

/-! ### Helpers for idempotence -/

theorem screenState_ext (s₁ s₂ : ScreenState) (h1 : s₁.title = s₂.title)
    (h2 : s₁.globalCss = s₂.globalCss) (h3 : s₁.components = s₂.components)
    (h4 : s₁.layout = s₂.layout) : s₁ = s₂ := by
  cases s₁
  cases s₂
  simp_all

theorem jsOr_idem (a b : Option String) : jsOr a (jsOr a b) = jsOr a b := by
  cases a <;> rfl

theorem applyPatch_title (prev : ScreenState) (p : Patch) :
    (applyPatch prev p).title = jsOr p.title prev.title := by
  rw [applyPatch_eq, normalizeLayout_title, appendNew_title, patchStages_fst,
    applyLayoutOps_title, applyDeletes_title, applyUpserts_fst_title]
  rfl

theorem applyPatch_globalCss (prev : ScreenState) (p : Patch) :
    (applyPatch prev p).globalCss = jsOr p.globalCss prev.globalCss := by
  rw [applyPatch_eq, normalizeLayout_globalCss, appendNew_globalCss, patchStages_fst,
    applyLayoutOps_globalCss, applyDeletes_globalCss, applyUpserts_fst_globalCss]
  rfl

/-- C3: a Patch containing only upserts (or only deletes) and no layout
ops is idempotent: applying it twice gives the same Screen as applying it
once. -/
theorem C3_upsert_delete_idempotent (s : ScreenState) (p : Patch)
    (hnd : (keys s.components).Nodup)
    (hops : p.layout_patch = [])
    (hcase : p.delete_components = [] ∨ p.upsert_components = []) :
    applyPatch (applyPatch s p) p = applyPatch s p := by
  obtain ⟨ups, dels, ops, pt, pg⟩ := p
  simp only at hops hcase
  subst hops
  rcases hcase with hdel | hups
  · -- upsert-only patch
    subst hdel
    set P : Patch := ⟨ups, [], [], pt, pg⟩ with hP
    have hout : applyPatch s P =
        normalizeLayout
          (appendNewComponentsToLayout
            (applyUpserts (patchBase s P) ups (keys s.components) []).1
            (applyUpserts (patchBase s P) ups (keys s.components) []).2) := rfl
    have hM1look : ∀ k,
        lookupC (applyUpserts (patchBase s P) ups (keys s.components) []).1.components k
          = (match upsVal ups k with
             | some v => some v
             | none => lookupC s.components k) := by
      intro k
      exact applyUpserts_lookup ups (patchBase s P) (keys s.components) [] k
    have hocomp : (applyPatch s P).components
        = (applyUpserts (patchBase s P) ups (keys s.components) []).1.components := by
      rw [hout, normalizeLayout_components, appendNew_components]
    have hups_has : ∀ u ∈ ups,
        hasKey (applyPatch s P).components u.id = true := by
      intro u hu
      have hsome := upsVal_isSome_of_mem ups u hu
      rw [hocomp, hasKey, hM1look u.id]
      cases hv : upsVal ups u.id with
      | some v => simp
      | none => rw [hv] at hsome; simp at hsome
    have hnd1 : (keys (applyPatch s P).components).Nodup := by
      rw [hocomp]
      exact nodupKeys_applyUpserts ups (patchBase s P) (keys s.components) [] hnd
    have hlay_mem : ∀ x ∈ (applyPatch s P).layout,
        jsTruthy (applyPatch s P).components x = true := by
      intro x hx
      rw [hout] at hx
      have := mem_normalizeLayout _ x hx
      rw [appendNew_components] at this
      rw [hocomp]
      exact this
    have hlay_nodup : (applyPatch s P).layout.Nodup := by
      rw [hout]; exact normalizeLayout_nodup _
    have hlay_len : (applyPatch s P).layout.length ≤ 200 := by
      rw [hout]; exact normalizeLayout_length _
    -- second application
    have hout2 : applyPatch (applyPatch s P) P =
        normalizeLayout
          (appendNewComponentsToLayout
            (applyUpserts (patchBase (applyPatch s P) P) ups
              (keys (applyPatch s P).components) []).1
            (applyUpserts (patchBase (applyPatch s P) P) ups
              (keys (applyPatch s P).components) []).2) := rfl
    have hsnd2 : (applyUpserts (patchBase (applyPatch s P) P) ups
        (keys (applyPatch s P).components) []).2 = [] := by
      apply applyUpserts_snd_of_all_prev
      intro u hu
      exact (hasKey_iff_mem_keys _ _).mp (hups_has u hu)
    have hcomps2 : (applyUpserts (patchBase (applyPatch s P) P) ups
        (keys (applyPatch s P).components) []).1.components
        = (applyPatch s P).components := by
      apply alist_ext
      · apply keys_applyUpserts_of_has
        intro u hu
        exact hups_has u hu
      · apply List.Nodup.sublist (List.Sublist.refl _)
        rw [keys_applyUpserts_of_has]
        · exact hnd1
        · intro u hu
          exact hups_has u hu
      · intro k
        have hL := applyUpserts_lookup ups (patchBase (applyPatch s P) P)
          (keys (applyPatch s P).components) [] k
        rw [hL]
        cases hv : upsVal ups k with
        | some v =>
          simp only
          rw [hocomp, hM1look k, hv]
        | none => simp only []; rfl
    rw [hout2, hsnd2]
    show normalizeLayout (applyUpserts (patchBase (applyPatch s P) P) ups
      (keys (applyPatch s P).components) []).1 = applyPatch s P
    have hfields : (applyUpserts (patchBase (applyPatch s P) P) ups
        (keys (applyPatch s P).components) []).1 = applyPatch s P := by
      apply screenState_ext
      · rw [applyUpserts_fst_title]
        show jsOr pt (applyPatch s P).title = _
        rw [applyPatch_title]
        exact jsOr_idem pt s.title
      · rw [applyUpserts_fst_globalCss]
        show jsOr pg (applyPatch s P).globalCss = _
        rw [applyPatch_globalCss]
        exact jsOr_idem pg s.globalCss
      · exact hcomps2
      · rw [applyUpserts_fst_layout]
        rfl
    rw [hfields]
    apply normalizeLayout_eq_self _ hlay_nodup hlay_mem hlay_len
  · -- delete-only patch
    subst hups
    set P : Patch := ⟨[], dels, [], pt, pg⟩ with hP
    have hout : applyPatch s P =
        normalizeLayout (applyDeletes (patchBase s P) dels) := rfl
    have hocomp : (applyPatch s P).components
        = (applyDeletes (patchBase s P) dels).components := by
      rw [hout, normalizeLayout_components]
    have hdel_gone : ∀ d ∈ dels, hasKey (applyPatch s P).components d = false := by
      intro d hd
      rw [hocomp, hasKey_applyDeletes]
      simp [hd]
    have hlay_mem : ∀ x ∈ (applyPatch s P).layout,
        jsTruthy (applyPatch s P).components x = true := by
      intro x hx
      rw [hout] at hx
      have := mem_normalizeLayout _ x hx
      rw [hocomp]
      exact this
    have hlay_nodup : (applyPatch s P).layout.Nodup := by
      rw [hout]; exact normalizeLayout_nodup _
    have hlay_len : (applyPatch s P).layout.length ≤ 200 := by
      rw [hout]; exact normalizeLayout_length _
    have hdel_notmem : ∀ d ∈ dels, d ∉ (applyPatch s P).layout := by
      intro d hd hmem
      rw [hout] at hmem
      have h1 := mem_layout_of_mem_normalizeLayout _ d hmem
      have h2 := (mem_layout_applyDeletes dels (patchBase s P) d).mp h1
      exact h2.2 hd
    have hout2 : applyPatch (applyPatch s P) P =
        normalizeLayout (applyDeletes (patchBase (applyPatch s P) P) dels) := rfl
    have hdel2 : applyDeletes (patchBase (applyPatch s P) P) dels
        = patchBase (applyPatch s P) P := by
      apply applyDeletes_eq_self
      intro d hd
      exact ⟨hdel_gone d hd, hdel_notmem d hd⟩
    rw [hout2, hdel2]
    have hbase2 : patchBase (applyPatch s P) P = applyPatch s P := by
      apply screenState_ext
      · show jsOr pt (applyPatch s P).title = _
        rw [applyPatch_title]
        exact jsOr_idem pt s.title
      · show jsOr pg (applyPatch s P).globalCss = _
        rw [applyPatch_globalCss]
        exact jsOr_idem pg s.globalCss
      · rfl
      · rfl
    rw [hbase2]
    apply normalizeLayout_eq_self _ hlay_nodup hlay_mem hlay_len

/-- C3 witness: an upsert-only patch applied twice. -/
theorem C3_upsert_delete_idempotent_witness :
    applyPatch (applyPatch exABC ⟨[⟨"d", "D", "x"⟩, ⟨"a", "A2", "y"⟩], [], [], some "t", none⟩)
        ⟨[⟨"d", "D", "x"⟩, ⟨"a", "A2", "y"⟩], [], [], some "t", none⟩
      = applyPatch exABC ⟨[⟨"d", "D", "x"⟩, ⟨"a", "A2", "y"⟩], [], [], some "t", none⟩ :=
  C3_upsert_delete_idempotent exABC ⟨[⟨"d", "D", "x"⟩, ⟨"a", "A2", "y"⟩], [], [], some "t", none⟩
    (by decide) rfl (Or.inl rfl)

/-- C7: applying a Patch whose layout_patch is a single set op listing 250
distinct ids that are all component keys yields a layout of exactly 200
entries: the first 200 given ids in the given order. -/
theorem C7_set_truncation (s : ScreenState) (L : List String) (pt pg : Option String)
    (hlen : L.length = 250) (hndL : L.Nodup)
    (hk : ∀ id ∈ L, hasKey s.components id = true) :
    (applyPatch s ⟨[], [], [LayoutOp.set L], pt, pg⟩).layout = L.take 200 ∧
      (applyPatch s ⟨[], [], [LayoutOp.set L], pt, pg⟩).layout.length = 200 := by
  have hfL : L.filter (fun id => jsTruthy s.components id) = L := by
    apply List.filter_eq_self.mpr
    intro id h
    exact jsTruthy_of_hasKey _ _ (hk id h)
  have hstage : (applyPatch s ⟨[], [], [LayoutOp.set L], pt, pg⟩).layout
      = ((uniqKeepOrder (L.filter (fun id => jsTruthy s.components id))).filter
          (fun id => jsTruthy s.components id)).take 200 := rfl
  have hmain : (applyPatch s ⟨[], [], [LayoutOp.set L], pt, pg⟩).layout = L.take 200 := by
    rw [hstage, hfL, uniqKeepOrder_eq_self L hndL, hfL]
  refine ⟨hmain, ?_⟩
  rw [hmain, List.length_take, hlen]
  rfl

theorem charOfNat_inj (a b : Nat) (ha : a < 256) (hb : b < 256)
    (h : Char.ofNat a = Char.ofNat b) : a = b := by
  have ha2 : Nat.isValidChar a := Or.inl (by omega)
  have hb2 : Nat.isValidChar b := Or.inl (by omega)
  have h2 := congrArg Char.toNat h
  simpa [Char.ofNat, ha2, hb2] using h2

theorem wIds_length : wIds.length = 250 := by
  simp [wIds]

theorem wIds_nodup : wIds.Nodup := by
  apply List.Nodup.map_on ?_ (List.nodup_range 250)
  intro a ha b hb hf
  simp only [List.mem_range] at ha hb
  have hdata : [Char.ofNat (97 + a % 26), Char.ofNat (97 + a / 26)]
      = [Char.ofNat (97 + b % 26), Char.ofNat (97 + b / 26)] := congrArg String.data hf
  obtain ⟨h1, h2⟩ : Char.ofNat (97 + a % 26) = Char.ofNat (97 + b % 26) ∧
      Char.ofNat (97 + a / 26) = Char.ofNat (97 + b / 26) := by
    injection hdata with h1 hrest
    injection hrest with h2 hnil
    exact ⟨h1, h2⟩
  have e1 : 97 + a % 26 = 97 + b % 26 := charOfNat_inj _ _ (by omega) (by omega) h1
  have e2 : 97 + a / 26 = 97 + b / 26 := charOfNat_inj _ _ (by omega) (by omega) h2
  omega

theorem hasKey_map_self (l : List String) (c : Component) (id : String) (h : id ∈ l) :
    hasKey (l.map (fun i => (i, c))) id = true := by
  induction l with
  | nil => simp at h
  | cons x xs ih =>
    rcases List.mem_cons.mp h with rfl | h2
    · simp [hasKey, lookupC]
    · by_cases hx : x = id
      · subst hx
        simp [hasKey, lookupC]
      · simp only [List.map_cons, hasKey, lookupC, hx, if_false]
        exact ih h2

theorem wState_keys : ∀ id ∈ wIds, hasKey wState.components id = true := by
  intro id h
  exact hasKey_map_self wIds exComp id h

/-- C7 witness: 250 concrete ids, all present as component keys. -/
theorem C7_set_truncation_witness :
    (applyPatch wState ⟨[], [], [LayoutOp.set wIds], none, none⟩).layout = wIds.take 200 ∧
      (applyPatch wState ⟨[], [], [LayoutOp.set wIds], none, none⟩).layout.length = 200 :=
  C7_set_truncation wState wIds none none wIds_length wIds_nodup wState_keys

/-- C5 (amended): the safety net appends exactly those ids newly added by
the upsert step (ids not previously own component keys, deduplicated, in
upsert order) that still pass the component-existence truthiness guard
and are absent from the layout after deletes and layout ops, at the end
of the layout, before the final normalization (which can still truncate
entries past position 200).  An id upserted and deleted in the same patch
is therefore not appended (unless its name is an Object.prototype
property).  In particular, upserting one brand-new component with no
layout op onto a screen with a consistent, duplicate-free layout of fewer
than 200 entries results in its id appended at the end. -/
theorem C5_auto_append :
    (∀ (prev : ScreenState) (p : Patch),
      (patchStages prev p).2 =
        uniqKeepOrder ((p.upsert_components.map UpsertEntry.id).filter
          (fun id => decide (id ∉ keys prev.components)))) ∧
    (∀ (prev : ScreenState) (p : Patch),
      (appendNewComponentsToLayout (patchStages prev p).1 (patchStages prev p).2).layout =
        (patchStages prev p).1.layout ++ (patchStages prev p).2.filter
          (fun id => jsTruthy (patchStages prev p).1.components id &&
            decide (id ∉ (patchStages prev p).1.layout))) ∧
    (∀ (prev : ScreenState) (u : UpsertEntry) (pt pg : Option String),
      prev.layout.Nodup → (∀ id ∈ prev.layout, hasKey prev.components id = true) →
      prev.layout.length < 200 → hasKey prev.components u.id = false →
      (applyPatch prev ⟨[u], [], [], pt, pg⟩).layout = prev.layout ++ [u.id]) := by
  have hsnd : ∀ (prev : ScreenState) (p : Patch),
      (patchStages prev p).2 =
        uniqKeepOrder ((p.upsert_components.map UpsertEntry.id).filter
          (fun id => decide (id ∉ keys prev.components))) := by
    intro prev p
    rw [patchStages_snd, applyUpserts_snd]
    rfl
  refine ⟨hsnd, ?_, ?_⟩
  · intro prev p
    apply appendNew_layout
    rw [hsnd]
    exact uniqKeepOrder_nodup _
  · intro prev u pt pg hnd hcons hlen hnew
    have hnp : u.id ∉ keys prev.components := by
      intro hm
      have := (hasKey_iff_mem_keys prev.components u.id).mpr hm
      rw [hnew] at this
      exact Bool.false_ne_true this
    have hnotmem : u.id ∉ prev.layout := by
      intro hm
      have := hcons u.id hm
      rw [hnew] at this
      exact Bool.false_ne_true this
    have hsu : applyUpserts (patchBase prev ⟨[u], [], [], pt, pg⟩) [u] (keys prev.components) []
        = ({ patchBase prev ⟨[u], [], [], pt, pg⟩ with
              components := setC prev.components u.id ⟨u.name, u.html⟩ }, [u.id]) := by
      simp only [applyUpserts]
      rw [if_pos ⟨hnp, List.not_mem_nil u.id⟩]
      rfl
    have happ : applyPatch prev ⟨[u], [], [], pt, pg⟩
        = normalizeLayout (appendNewComponentsToLayout
            (applyUpserts (patchBase prev ⟨[u], [], [], pt, pg⟩) [u] (keys prev.components) []).1
            (applyUpserts (patchBase prev ⟨[u], [], [], pt, pg⟩) [u]
              (keys prev.components) []).2) := rfl
    rw [happ, hsu]
    have hkeyM : ∀ x, hasKey (setC prev.components u.id ⟨u.name, u.html⟩) x =
        (decide (x = u.id) || hasKey prev.components x) := by
      intro x
      exact hasKey_setC prev.components u.id x ⟨u.name, u.html⟩
    have happ2 : (appendNewComponentsToLayout
        { patchBase prev ⟨[u], [], [], pt, pg⟩ with
          components := setC prev.components u.id ⟨u.name, u.html⟩ } [u.id]).layout
        = prev.layout ++ [u.id] := by
      rw [appendNew_layout [u.id] _ (List.nodup_singleton u.id)]
      show prev.layout ++ _ = prev.layout ++ [u.id]
      congr 1
      have h1 : jsTruthy (setC prev.components u.id ⟨u.name, u.html⟩) u.id = true := by
        apply jsTruthy_of_hasKey
        rw [hkeyM]
        simp
      simp only [List.filter_cons, List.filter_nil]
      simp [h1, patchBase, hnotmem]
    show (((uniqKeepOrder (appendNewComponentsToLayout
        { patchBase prev ⟨[u], [], [], pt, pg⟩ with
          components := setC prev.components u.id ⟨u.name, u.html⟩ } [u.id]).layout).filter
        (fun id => jsTruthy (appendNewComponentsToLayout
          { patchBase prev ⟨[u], [], [], pt, pg⟩ with
            components := setC prev.components u.id ⟨u.name, u.html⟩ } [u.id]).components id)).take
        200) = prev.layout ++ [u.id]
    rw [happ2, appendNew_components]
    have hnd2 : (prev.layout ++ [u.id]).Nodup := by
      refine List.Nodup.append hnd (List.nodup_singleton u.id) ?_
      intro x hx hy
      simp at hy
      subst hy
      exact hnotmem hx
    rw [uniqKeepOrder_eq_self _ hnd2]
    have hfilt : (prev.layout ++ [u.id]).filter
        (fun id => jsTruthy ({ patchBase prev ⟨[u], [], [], pt, pg⟩ with
          components := setC prev.components u.id ⟨u.name, u.html⟩ }).components id) =
        prev.layout ++ [u.id] := by
      apply List.filter_eq_self.mpr
      intro x hx
      show jsTruthy (setC prev.components u.id ⟨u.name, u.html⟩) x = true
      apply jsTruthy_of_hasKey
      rw [hkeyM]
      rcases List.mem_append.mp hx with h | h
      · rw [hcons x h]
        simp
      · simp at h
        subst h
        simp
    rw [hfilt]
    apply List.take_of_length_le
    rw [List.length_append]
    simp only [List.length_singleton]
    omega

/-- C5 counterexample: "d" is newly added by the upsert (it is not a key
of the previous components) and absent from the layout after deletes and
layout ops, yet the same-patch delete removed its component, so the
safety net does not append it — the claim's unconditional append fails. -/
theorem C5_counterexample :
    "d" ∉ keys exABC.components ∧
      (applyPatch exABC ⟨[⟨"d", "D", "x"⟩], ["d"], [], none, none⟩).layout
        = ["a", "b", "c"] := by
  constructor
  · decide
  · decide

/-- C5 witness: upserting brand-new "d" with no layout op appends it. -/
theorem C5_auto_append_witness :
    (applyPatch exABC ⟨[⟨"d", "D", "x"⟩], [], [], none, none⟩).layout
      = exABC.layout ++ ["d"] :=
  C5_auto_append.2.2 exABC ⟨"d", "D", "x"⟩ none none (by decide) (by decide) (by decide)
    (by decide)

/-! ### Suffix lemmas for the stripping scans -/

theorem suffix_after_dropWhile (p : Char → Bool) (l xs : List Char) (x : Char)
    (h : l.dropWhile p = x :: xs) : xs <:+ l := by
  have h2 := List.dropWhile_suffix p (l := l)
  rw [h] at h2
  exact (List.suffix_cons x xs).trans h2

theorem findQuote_suffix (q : Char) (l r : List Char) (h : findQuote q l = some r) :
    r <:+ l := by
  induction l with
  | nil => simp [findQuote] at h
  | cons c cs ih =>
    rw [findQuote] at h
    by_cases hc : (c == q) = true
    · rw [if_pos hc] at h
      injection h with h
      subst h
      exact List.suffix_cons c cs
    · rw [if_neg hc] at h
      exact (ih h).trans (List.suffix_cons c cs)

theorem findCloseScript_suffix (l r : List Char) (h : findCloseScript l = some r) :
    r <:+ l := by
  induction l with
  | nil => simp [findCloseScript] at h
  | cons c cs ih =>
    rw [findCloseScript] at h
    by_cases hc : ciStartsWith scriptClosePat (c :: cs) = true
    · rw [if_pos hc] at h
      injection h with h
      subst h
      exact (List.drop_suffix 8 cs).trans (List.suffix_cons c cs)
    · rw [if_neg hc] at h
      exact (ih h).trans (List.suffix_cons c cs)

theorem matchQuotedHandler_suffix (l r : List Char)
    (h : matchQuotedHandler l = some r) : r <:+ l := by
  match l with
  | [] => simp [matchQuotedHandler] at h
  | [c] => simp [matchQuotedHandler] at h
  | [c, o] => simp [matchQuotedHandler] at h
  | [c, o, n] => simp [matchQuotedHandler] at h
  | c :: o :: n :: c3 :: rest3 =>
    rw [matchQuotedHandler] at h
    by_cases h1 : (isJsSpace c && (lowerAscii o == 'o') && (lowerAscii n == 'n')
        && isAsciiLetter c3) = true
    · rw [if_pos h1] at h
      cases heq4 : (rest3.dropWhile isAsciiLetter).dropWhile isJsSpace with
      | nil => rw [heq4] at h; simp at h
      | cons e rest4 =>
        rw [heq4] at h
        simp only [] at h
        by_cases he : (e == '=') = true
        · rw [if_pos he] at h
          cases heq5 : rest4.dropWhile isJsSpace with
          | nil => rw [heq5] at h; simp at h
          | cons q rest5 =>
            rw [heq5] at h
            simp only [] at h
            by_cases hq : (q == quoteD || q == quoteS) = true
            · rw [if_pos hq] at h
              have hfq := findQuote_suffix q rest5 r h
              have hb : rest5 <:+ rest4 := suffix_after_dropWhile _ _ _ _ heq5
              have hc : rest4 <:+ (rest3.dropWhile isAsciiLetter).dropWhile isJsSpace := by
                rw [heq4]
                exact List.suffix_cons _ _
              have h5 : rest5 <:+ rest3 :=
                (hb.trans hc).trans ((List.dropWhile_suffix _).trans (List.dropWhile_suffix _))
              have h3 : rest3 <:+ c :: o :: n :: c3 :: rest3 := ⟨[c, o, n, c3], rfl⟩
              exact (hfq.trans h5).trans h3
            · rw [if_neg hq] at h
              simp at h
        · rw [if_neg he] at h
          simp at h
    · rw [if_neg h1] at h
      simp at h

theorem matchUnquotedHandler_suffix (l r : List Char)
    (h : matchUnquotedHandler l = some r) : r <:+ l := by
  match l with
  | [] => simp [matchUnquotedHandler] at h
  | [c] => simp [matchUnquotedHandler] at h
  | [c, o] => simp [matchUnquotedHandler] at h
  | [c, o, n] => simp [matchUnquotedHandler] at h
  | c :: o :: n :: c3 :: rest3 =>
    rw [matchUnquotedHandler] at h
    by_cases h1 : (isJsSpace c && (lowerAscii o == 'o') && (lowerAscii n == 'n')
        && isAsciiLetter c3) = true
    · rw [if_pos h1] at h
      cases heq4 : (rest3.dropWhile isAsciiLetter).dropWhile isJsSpace with
      | nil => rw [heq4] at h; simp at h
      | cons e rest4 =>
        rw [heq4] at h
        simp only [] at h
        by_cases he : (e == '=') = true
        · rw [if_pos he] at h
          cases heq5 : rest4.dropWhile isJsSpace with
          | nil => rw [heq5] at h; simp at h
          | cons v rest5 =>
            rw [heq5] at h
            simp only [] at h
            by_cases hv : (v == '>') = true
            · rw [if_pos hv] at h
              simp at h
            · rw [if_neg hv] at h
              injection h with h
              subst h
              have hb : rest5 <:+ rest4 := suffix_after_dropWhile _ _ _ _ heq5
              have hc : rest4 <:+ (rest3.dropWhile isAsciiLetter).dropWhile isJsSpace := by
                rw [heq4]
                exact List.suffix_cons _ _
              have h5 : rest5 <:+ rest3 :=
                (hb.trans hc).trans ((List.dropWhile_suffix _).trans (List.dropWhile_suffix _))
              have h3 : rest3 <:+ c :: o :: n :: c3 :: rest3 := ⟨[c, o, n, c3], rfl⟩
              exact (List.dropWhile_suffix _).trans (h5.trans h3)
        · rw [if_neg he] at h
          simp at h
    · rw [if_neg h1] at h
      simp at h

theorem stripScriptsGo_sublist : ∀ fuel l, (stripScriptsGo fuel l).Sublist l := by
  intro fuel
  induction fuel with
  | zero => intro l; exact List.Sublist.refl l
  | succ n ih =>
    intro l
    cases l with
    | nil => exact List.Sublist.refl _
    | cons c cs =>
      rw [stripScriptsGo]
      by_cases h : scriptStartsAt (c :: cs) = true
      · rw [if_pos h]
        cases hfc : findCloseScript (cs.drop 6) with
        | some rest =>
          have hsuf : rest <:+ cs.drop 6 := findCloseScript_suffix _ _ hfc
          exact ((ih rest).trans
            ((hsuf.sublist.trans (List.drop_sublist 6 cs)).trans
              (List.sublist_cons_self c cs)))
        | none => exact (ih cs).cons₂ c
      · rw [if_neg h]
        exact (ih cs).cons₂ c

theorem stripQuotedGo_sublist : ∀ fuel l, (stripQuotedGo fuel l).Sublist l := by
  intro fuel
  induction fuel with
  | zero => intro l; exact List.Sublist.refl l
  | succ n ih =>
    intro l
    cases l with
    | nil => exact List.Sublist.refl _
    | cons c cs =>
      rw [stripQuotedGo]
      cases hm : matchQuotedHandler (c :: cs) with
      | some rest =>
        have hsuf : rest <:+ c :: cs := matchQuotedHandler_suffix _ _ hm
        exact (ih rest).trans hsuf.sublist
      | none => exact (ih cs).cons₂ c

theorem stripUnquotedGo_sublist : ∀ fuel l, (stripUnquotedGo fuel l).Sublist l := by
  intro fuel
  induction fuel with
  | zero => intro l; exact List.Sublist.refl l
  | succ n ih =>
    intro l
    cases l with
    | nil => exact List.Sublist.refl _
    | cons c cs =>
      rw [stripUnquotedGo]
      cases hm : matchUnquotedHandler (c :: cs) with
      | some rest =>
        have hsuf : rest <:+ c :: cs := matchUnquotedHandler_suffix _ _ hm
        exact (ih rest).trans hsuf.sublist
      | none => exact (ih cs).cons₂ c

/-- C8 counterexample: on a concrete input, the stripped output contains a
complete script element — the two quoted-handler removals splice the
surrounding text into `<script>alert(1)</script>`, so the output is not
free of script elements. -/
theorem C8_counterexample :
    stripScriptsAndHandlers cexC8 = "<script>alert(1)</script>" ∧
      hasScriptElement (stripScriptsAndHandlers cexC8).data = true := by
  constructor
  · decide
  · decide

/-- C8 (amended): the stripping function only deletes matched substrings —
its output is always a subsequence of its input — and it removes every
script element and handler it matches in one left-to-right pass, but the
deletions can concatenate surrounding text into new script elements or
handlers, so the output is not guaranteed to be free of them. -/
theorem C8_strip_is_deletion_only (s : String) :
    (stripScriptsAndHandlers s).data.Sublist s.data := by
  show (stripUnquotedGo _ _).Sublist s.data
  exact ((stripUnquotedGo_sublist _ _).trans (stripQuotedGo_sublist _ _)).trans
    (stripScriptsGo_sublist _ _)
